import Mathlib

/-! Shallow embedding of `src/src/ui/TreeView.cpp` (class `TreeView`).

The tree of model rows, as observed through the view, is a rose tree:
each node carries the view's expansion flag (`QTreeView::isExpanded`)
and its child rows (`model->index(i, 0, parent)`), with
`model->rowCount(parent)` equal to the number of children.  The forest
type is a mutual inductive (rather than `List TNode`) so that the
traversals below are structurally recursive and evaluate by `decide`. -/

mutual
inductive TNode : Type where
  | node (expanded : Bool) (children : TForest) : TNode
inductive TForest : Type where
  | nil : TForest
  | cons (head : TNode) (tail : TForest) : TForest
end

/-- The view expansion flag of a row (`QTreeView::isExpanded(idx)`). -/
def TNode.expanded : TNode → Bool
  | .node e _ => e

/-- The child rows of a row (`model->index(i, 0, idx)` for each `i`). -/
def TNode.children : TNode → TForest
  | .node _ cs => cs

/-- Whether a forest of rows is empty (`model->rowCount(idx) == 0`). -/
def TForest.isEmpty : TForest → Bool
  | .nil => true
  | .cons _ _ => false

/-- The number of rows in a forest (`model->rowCount(parent)`). -/
def TForest.length : TForest → Nat
  | .nil => 0
  | .cons _ rest => rest.length + 1

/-- The `i`-th row of a forest, if any (`model->index(i, 0, parent)`). -/
def TForest.get? : TForest → Nat → Option TNode
  | .nil, _ => none
  | .cons c _, 0 => some c
  | .cons _ rest, i + 1 => rest.get? i

/-- The first `i` rows of a forest. -/
def TForest.take : TForest → Nat → TForest
  | .nil, _ => .nil
  | _, 0 => .nil
  | .cons c rest, i + 1 => .cons c (rest.take i)

/-- The forest without its first `i` rows. -/
def TForest.drop : TForest → Nat → TForest
  | cs, 0 => cs
  | .nil, _ => .nil
  | .cons _ rest, i + 1 => rest.drop i

/-- Concatenation of forests. -/
def TForest.append : TForest → TForest → TForest
  | .nil, ds => ds
  | .cons c rest, ds => .cons c (rest.append ds)

/-- Modelled from the spec: the declaration of `countCollapsed` with its
default arguments lives in `TreeView.h`, which is not among the sources.
Per the spec — `countCollapsed` is the from-scratch depth traversal that
the data-changed and rows-inserted handlers invoke as `countCollapsed()` —
the omitted `recursive` argument defaults to `true` (and the omitted
`parent` argument defaults to the root index). -/
def countCollapsedRecursiveDefault : Bool := true

mutual
/-- The loop of `TreeView::countCollapsed` over the child rows of `parent`:
for each row `idx`, add 1 when `model->rowCount(idx) && !isExpanded(idx)`,
and, when `recursive` holds, add the inner call `countCollapsed(idx)`. -/
def countCollapsedList : Bool → TForest → Nat
  | _, .nil => 0
  | r, .cons c rest => countCollapsedEntry r c + countCollapsedList r rest
termination_by structural _ cs => cs
/-- The contribution of one row to `TreeView::countCollapsed`.  The inner
call `countCollapsed(idx)` spells no second argument, so it uses
`countCollapsedRecursiveDefault`. -/
def countCollapsedEntry : Bool → TNode → Nat
  | r, .node e cs =>
      (if !cs.isEmpty && !e then 1 else 0) +
      (if r then countCollapsedList countCollapsedRecursiveDefault cs else 0)
termination_by structural _ t => t
end

/-- `TreeView::countCollapsed(parent, recursive)` (TreeView.cpp:195). -/
def countCollapsed (parent : TNode) (recursive : Bool) : Nat :=
  countCollapsedList recursive parent.children

/-- A position of a row in the tree: the chain of row numbers leading to it
from the (invisible) root index.  `[]` denotes the root index itself. -/
abbrev TPath := List Nat

/-- Resolve a path to the row it denotes, if any. -/
def getNode? : TPath → TNode → Option TNode
  | [], t => some t
  | i :: p, t => (t.children.get? i).bind (getNode? p)

/-- Replace the expansion flag of the row at a path (the view-state change
performed by the toolkit when a row is expanded or collapsed; the model
rows themselves are untouched). -/
def setExpandedAt : TPath → Bool → TNode → TNode
  | [], b, t => .node b t.children
  | i :: p, b, t =>
      match t.children.get? i with
      | none => t
      | some c =>
          .node t.expanded
            ((t.children.take i).append
              (.cons (setExpandedAt p b c) (t.children.drop (i + 1))))

/-- Whether every proper ancestor of the row at the given path is expanded,
i.e. whether the row is currently shown by the view. -/
def ancOK : TPath → TNode → Bool
  | [], _ => true
  | [_], _ => true
  | i :: p, t =>
      match t.children.get? i with
      | some c => c.expanded && ancOK p c
      | none => false

mutual
/-- Set the expansion flag of every row of a node's subtree
(`QTreeView::expandAll` / `QTreeView::collapseAll` view-state effect). -/
def setAllNode : Bool → TNode → TNode
  | b, .node _ cs => .node b (setAllForest b cs)
termination_by structural _ t => t
/-- Forest part of `setAllNode`. -/
def setAllForest : Bool → TForest → TForest
  | _, .nil => .nil
  | b, .cons c rest => .cons (setAllNode b c) (setAllForest b rest)
termination_by structural _ cs => cs
end

/-- A `QModelIndex` as handed around by the view: either the invalid index
(`QModelIndex()`) or the valid index of the row at a path. -/
inductive MIdx : Type where
  | invalid : MIdx
  | valid (path : TPath) : MIdx
deriving DecidableEq

/-- `QModelIndex::isValid`. -/
def MIdx.isValid : MIdx → Bool
  | .invalid => false
  | .valid _ => true

/-- `QModelIndex::parent`: the parent of a top-level row is the invalid
root index. -/
def MIdx.parent : MIdx → MIdx
  | .invalid => .invalid
  | .valid p =>
      match p.dropLast with
      | [] => .invalid
      | q => .valid q

/-- The state owned by a `TreeView` widget: the displayed tree (model rows
plus per-row expansion flags), the collapse counter `mCollapseCount`, the
two suppression flags, and the selection-related toolkit state it touches
(`selectionModel()->selectedIndexes()`, `currentIndex`, `rootIndex`). -/
structure TVS : Type where
  root : TNode
  mCollapseCount : Int
  mSupressItemExpandStateChanged : Bool
  suppressDeselectionHandling : Bool
  selection : List MIdx
  currentIndex : MIdx
  rootIndex : MIdx

/-- `TreeView::setCollapseCount` (TreeView.cpp:166): stores the value and
emits `collapseCountChanged`.  Its `assert(value >= 0)` is the condition
tracked by the argument traces below. -/
def setCollapseCountFn (s : TVS) (value : Int) : TVS :=
  { s with mCollapseCount := value }

/-- The placeholder row used to resolve an index; every handler below only
resolves indices that the toolkit guarantees to be valid. -/
def dfltNode : TNode := .node false .nil

/-- `TreeView::itemExpanded` (TreeView.cpp:226): unless suppressed, set the
counter to `mCollapseCount - 1 + countCollapsed(index, false)`.  Returns
the new state together with the values passed to `setCollapseCount`. -/
def itemExpandedT (s : TVS) (p : TPath) : TVS × List Int :=
  if s.mSupressItemExpandStateChanged then (s, [])
  else
    let v : Int :=
      s.mCollapseCount - 1 +
        (countCollapsed ((getNode? p s.root).getD dfltNode) false : Int)
    (setCollapseCountFn s v, [v])

/-- `TreeView::itemCollapsed` (TreeView.cpp:234): unless suppressed, set the
counter to `mCollapseCount + 1 - countCollapsed(index, false)`. -/
def itemCollapsedT (s : TVS) (p : TPath) : TVS × List Int :=
  if s.mSupressItemExpandStateChanged then (s, [])
  else
    let v : Int :=
      s.mCollapseCount + 1 -
        (countCollapsed ((getNode? p s.root).getD dfltNode) false : Int)
    (setCollapseCountFn s v, [v])

/-- The events that drive the collapse counter: a single row's expansion or
collapse (the toolkit fires `expanded`/`collapsed` exactly when the flag of
a valid row actually changes), the bulk `TreeView::expandAll` and
`TreeView::collapseAll` calls (which carry the row paths for which the
suppressed per-item signals fire), and a model change followed by the
`rowsInserted` handler. -/
inductive TOp : Type where
  | expandOne (p : TPath) : TOp
  | collapseOne (p : TPath) : TOp
  | expandAll (emitted : List TPath) : TOp
  | collapseAll (emitted : List TPath) : TOp
  | rowsInserted (newRoot : TNode) : TOp

/-- Fold a per-item handler over the signals fired during a bulk
expand/collapse, accumulating the values passed to `setCollapseCount`. -/
def foldHandler (h : TVS → TPath → TVS × List Int)
    (init : TVS) (emitted : List TPath) : TVS × List Int :=
  emitted.foldl
    (fun acc q =>
      let r := h acc.1 q
      (r.1, acc.2 ++ r.2))
    (init, [])

/-- One step of the view's event loop, returning the new state and the
trace of values passed to `setCollapseCount` during the step.
`expandOne`/`collapseOne`: the toolkit updates the row's flag and then
fires `expanded`/`collapsed` (TreeView.cpp:226/234); nothing happens when
the index is invalid or the flag does not change.
`expandAll`/`collapseAll` (TreeView.cpp:210/218): raise
`mSupressItemExpandStateChanged`, let the toolkit walk the tree (firing
suppressed per-item signals), lower the flag again, then set the counter
to `0` resp. `model()->rowCount()` — the model itself is never changed by
expanding or collapsing, so its top-level row count is that of `s.root`.
`rowsInserted`: the model changed (externally), and the handler
(TreeView.cpp:184) recounts from scratch. -/
def applyOpT (s : TVS) : TOp → TVS × List Int
  | .expandOne p =>
      match p with
      | [] => (s, [])
      | _ :: _ =>
          match getNode? p s.root with
          | none => (s, [])
          | some n =>
              if n.expanded then (s, [])
              else itemExpandedT { s with root := setExpandedAt p true s.root } p
  | .collapseOne p =>
      match p with
      | [] => (s, [])
      | _ :: _ =>
          match getNode? p s.root with
          | none => (s, [])
          | some n =>
              if !n.expanded then (s, [])
              else itemCollapsedT { s with root := setExpandedAt p false s.root } p
  | .expandAll emitted =>
      let s1 := { s with mSupressItemExpandStateChanged := true }
      let s2 := { s1 with root := TNode.node s1.root.expanded (setAllForest true s1.root.children) }
      let fr := foldHandler itemExpandedT s2 emitted
      let s4 := { fr.1 with mSupressItemExpandStateChanged := false }
      (setCollapseCountFn s4 0, fr.2 ++ [(0 : Int)])
  | .collapseAll emitted =>
      let s1 := { s with mSupressItemExpandStateChanged := true }
      let s2 := { s1 with root := TNode.node s1.root.expanded (setAllForest false s1.root.children) }
      let fr := foldHandler itemCollapsedT s2 emitted
      let s4 := { fr.1 with mSupressItemExpandStateChanged := false }
      let v : Int := (s.root.children.length : Int)
      (setCollapseCountFn s4 v, fr.2 ++ [v])
  | .rowsInserted newRoot =>
      let s1 := { s with root := newRoot }
      let v : Int := (countCollapsed s1.root true : Int)
      (setCollapseCountFn s1 v, [v])

/-- Run a sequence of events, concatenating the `setCollapseCount` traces. -/
def runOps (s : TVS) : List TOp → TVS × List Int
  | [] => (s, [])
  | o :: os =>
      let r := applyOpT s o
      let r2 := runOps r.1 os
      (r2.1, r.2 ++ r2.2)

/-- `TreeView::handleSelectionChange` (TreeView.cpp:140).  The C++ handler
ignores its `selected` argument (see the FIXME in the source) and
re-queries `selectionModel()->selectedIndexes()`, here `s.selection`;
`deselected` is the deselected-indexes list of the second argument.
Returns the new state and the payloads of the emitted `fileSelected`
signals. -/
def handleSelectionChange (s : TVS) (deselected : List MIdx) : TVS × List MIdx :=
  let indexes := s.selection
  let emits : List MIdx :=
    if 0 < indexes.length then
      [if indexes.length = 1 then indexes.headD .invalid else .invalid]
    else []
  if s.suppressDeselectionHandling then (s, emits)
  else
    if indexes.isEmpty && !deselected.isEmpty then
      let par := (deselected.headD .invalid).parent
      let s1 := { s with currentIndex := par }
      let s2 := if !par.isValid then { s1 with rootIndex := .invalid } else s1
      (s2, emits)
    else (s, emits)

/-- `QItemSelectionModel::clearSelection`: when the selection is non-empty,
clear it and fire `selectionChanged` with the old selection deselected,
which runs `TreeView::handleSelectionChange`. -/
def clearSelectionFn (s : TVS) : TVS :=
  if s.selection.isEmpty then s
  else (handleSelectionChange { s with selection := [] } s.selection).1

/-- `TreeView::deselectAll` (TreeView.cpp:242): raise
`suppressDeselectionHandling`, clear the selection, lower the flag. -/
def deselectAllFn (s : TVS) : TVS :=
  let s1 := { s with suppressDeselectionHandling := true }
  let s2 := clearSelectionFn s1
  { s2 with suppressDeselectionHandling := false }

/-- The numeric value of `Qt::CheckStateRole` in the toolkit. -/
def qtCheckStateRole : Nat := 10

/-- The data-changed overload of `TreeView::updateCollapseCount`
(TreeView.cpp:173): `assert(topLeft == bottomRight)`, then read `roles[0]`
(undefined behaviour when `roles` is empty — both modelled as `none`);
return early unless the first role is `Qt::CheckStateRole`, else recount
from scratch. -/
def updateCollapseCountDataFn (s : TVS) (topLeft bottomRight : MIdx)
    (roles : List Nat) : Option TVS :=
  if topLeft = bottomRight then
    match roles with
    | [] => none
    | r :: _ =>
        if r ≠ qtCheckStateRole then some s
        else some (setCollapseCountFn s ((countCollapsed s.root true : Nat) : Int))
  else none

/-- The rows-inserted overload of `TreeView::updateCollapseCount`
(TreeView.cpp:184): recount from scratch. -/
def updateCollapseCountRowsFn (s : TVS) : TVS :=
  setCollapseCountFn s ((countCollapsed s.root true : Nat) : Int)

/-- The dynamic type of the model installed on the view, as discriminated
by the two `qobject_cast`s in `TreeView::discard` (TreeView.cpp:63-66). -/
inductive SourceModelKind : Type where
  | diffTreeModel : SourceModelKind
  | otherSource : SourceModelKind
deriving DecidableEq

/-- A view model is either a `QSortFilterProxyModel` over some source
model, or something else (first `qobject_cast` fails). -/
inductive ViewModelKind : Type where
  | sortFilterProxy (src : SourceModelKind) : ViewModelKind
  | otherModel : ViewModelKind
deriving DecidableEq

/-- The three assertion sites of `TreeView::discard`: `assert(p)` after the
proxy cast, `assert(m)` after the source-model cast, and `assert(view)` in
the confirm-button lambda. -/
inductive AssertPoint : Type where
  | proxyCast : AssertPoint
  | sourceCast : AssertPoint
  | parentViewMissing : AssertPoint
deriving DecidableEq

/-- The externally visible actions of the discard confirm-button lambda
(TreeView.cpp:82-90): the single call to `DiffTreeModel::discard`, the
log entry constructed via `RepoView::addLogEntry`, and the error shown
via `RepoView::error`. -/
inductive DEffect : Type where
  | modelDiscardCall : DEffect
  | logEntryAdd : DEffect
  | errorShow : DEffect
deriving DecidableEq, BEq

/-- `TreeView::discard` (TreeView.cpp:61) followed by a click on the
confirm button: cast the view's model to `QSortFilterProxyModel`
(`assert(p)`), cast its source model to `DiffTreeModel` (`assert(m)`);
the lambda then calls `m->discard(sIndex)` once and, exactly when it
returns `false`, resolves the parent `RepoView` (`assert(view)`), adds one
log entry and shows one error; no retry happens.  `Except` separates the
assertion-failure paths from the effect trace. -/
def discardRun (model : ViewModelKind) (parentViewExists : Bool)
    (discardSucceeds : Bool) : Except AssertPoint (List DEffect) :=
  match model with
  | .otherModel => .error .proxyCast
  | .sortFilterProxy src =>
      match src with
      | .otherSource => .error .sourceCast
      | .diffTreeModel =>
          if discardSucceeds then .ok [.modelDiscardCall]
          else
            if parentViewExists then
              .ok [.modelDiscardCall, .logEntryAdd, .errorShow]
            else .error .parentViewMissing

mutual
/-- Specification-side count (spec §8): a row of this forest counts when it
has at least one child and is in the collapsed state; every row of the
tree is counted, whether or not an ancestor is collapsed. -/
def totalCWCForest : TForest → Nat
  | .nil => 0
  | .cons c rest => totalCWCEntry c + totalCWCForest rest
termination_by structural cs => cs
/-- Node part of `totalCWCForest`. -/
def totalCWCEntry : TNode → Nat
  | .node e cs => (if !cs.isEmpty && !e then 1 else 0) + totalCWCForest cs
termination_by structural t => t
end

mutual
/-- Specification-side count of the claim for `countCollapsed`: collapsed
rows with children among the currently VISIBLE rows only — the traversal
does not descend into a collapsed row. -/
def visibleCWCForest : TForest → Nat
  | .nil => 0
  | .cons c rest => visibleCWCEntry c + visibleCWCForest rest
termination_by structural cs => cs
/-- Node part of `visibleCWCForest`. -/
def visibleCWCEntry : TNode → Nat
  | .node e cs =>
      (if !cs.isEmpty && !e then 1 else 0) +
      (if e then visibleCWCForest cs else 0)
termination_by structural t => t
end

mutual
/-- Proof device: the number of rows that are collapsed-with-children and
whose parent is not itself collapsed-with-children; `pc` records whether
the parent row is collapsed-with-children.  The per-item handlers
preserve `mCollapseCount ≥ phiForest false root.children` (see below). -/
def phiForest : Bool → TForest → Nat
  | _, .nil => 0
  | pc, .cons c rest => phiNode pc c + phiForest pc rest
termination_by structural _ cs => cs
/-- Node part of `phiForest`. -/
def phiNode : Bool → TNode → Nat
  | pc, .node e cs =>
      (if (!cs.isEmpty && !e) && !pc then 1 else 0) +
      phiForest (!cs.isEmpty && !e) cs
termination_by structural _ t => t
end

/-- A consistent initial view state: the counter holds the from-scratch
count (as established by the `rowsInserted` / data-changed handlers) and
no suppression flag is raised. -/
def ConsistentState (s : TVS) : Prop :=
  s.mCollapseCount = ((countCollapsed s.root true : Nat) : Int) ∧
  s.mSupressItemExpandStateChanged = false ∧
  s.suppressDeselectionHandling = false

/-- An event is UI-safe in a state when, in case it actually fires a
single-row `expanded`/`collapsed` signal, its target is a shown row
(every proper ancestor expanded) with at least one child — exactly the
rows the user can toggle. -/
def safeOp (s : TVS) : TOp → Bool
  | .expandOne p =>
      match p with
      | [] => true
      | _ :: _ =>
          match getNode? p s.root with
          | none => true
          | some n => n.expanded || (!n.children.isEmpty && ancOK p s.root)
  | .collapseOne p =>
      match p with
      | [] => true
      | _ :: _ =>
          match getNode? p s.root with
          | none => true
          | some n => !n.expanded || (!n.children.isEmpty && ancOK p s.root)
  | .expandAll _ => true
  | .collapseAll _ => true
  | .rowsInserted _ => true

/-- A sequence of events is UI-safe when each event is safe in the state
it is applied to. -/
def safeRun (s : TVS) : List TOp → Bool
  | [] => true
  | o :: os => safeOp s o && safeRun (applyOpT s o).1 os

/-- The invariant maintained by the per-item handlers on shown rows: the
suppression flag is down and the counter dominates `phiForest`. -/
def TVInv (s : TVS) : Prop :=
  s.mSupressItemExpandStateChanged = false ∧
  ((phiForest false s.root.children : Nat) : Int) ≤ s.mCollapseCount

/-- A leaf row (no children; a file entry of the diff tree). -/
def leafN : TNode := .node false .nil

/-- Chain tree: one top-level row `A` (collapsed) with a single child `B`
(collapsed) which has a single leaf child; the root flag is irrelevant. -/
def chainABC : TNode :=
  .node true (.cons (.node false (.cons (.node false (.cons leafN .nil)) .nil)) .nil)

/-- Diamond tree, all expanded: one top-level row `A` with two children
`B` and `D`, each with one leaf child. -/
def diamondAE : TNode :=
  .node true
    (.cons
      (.node true
        (.cons (.node true (.cons leafN .nil))
          (.cons (.node true (.cons leafN .nil)) .nil)))
      .nil)

/-- A view state with the given tree and counter, all flags down and no
selection. -/
def mkState (t : TNode) (c : Int) : TVS :=
  ⟨t, c, false, false, [], .invalid, .invalid⟩

/-- A view state whose `suppressDeselectionHandling` flag is raised on
entry. -/
def c6state : TVS := ⟨chainABC, 2, false, true, [], .invalid, .invalid⟩

/-- A view state with exactly one selected index. -/
def c7wState : TVS := ⟨chainABC, 2, false, false, [MIdx.valid [3]], .invalid, .invalid⟩

@[simp] theorem TNode.expanded_node (e : Bool) (cs : TForest) :
    (TNode.node e cs).expanded = e := rfl

@[simp] theorem TNode.children_node (e : Bool) (cs : TForest) :
    (TNode.node e cs).children = cs := rfl

/-- Simultaneous induction over the mutual tree/forest types, stated for a
forest goal. -/
theorem forestInd (P : TNode → Prop) (Q : TForest → Prop)
    (h1 : ∀ e l, Q l → P (TNode.node e l))
    (h2 : Q TForest.nil)
    (h3 : ∀ c rest, P c → Q rest → Q (TForest.cons c rest))
    (cs : TForest) : Q cs :=
  @TForest.rec P Q h1 h2 h3 cs

/-- With the defaulted `recursive = true`, `countCollapsed` computes the
specification-side count of ALL collapsed rows with children. -/
theorem countCollapsedList_true_eq_total (cs : TForest) :
    countCollapsedList true cs = totalCWCForest cs :=
  forestInd (fun t => countCollapsedEntry true t = totalCWCEntry t)
    (fun l => countCollapsedList true l = totalCWCForest l)
    (fun e l h => by
      simp [countCollapsedEntry, totalCWCEntry, countCollapsedRecursiveDefault, h])
    (by simp [countCollapsedList, totalCWCForest])
    (fun c rest hc hrest => by
      simp [countCollapsedList, totalCWCForest, hc, hrest])
    cs

/-- Splitting `phiForest` at the parent flag: a false parent flag adds one
unit for each collapsed-with-children row of the list itself, which is
exactly `countCollapsed(·, false)` of the list. -/
theorem phiForest_false_split (cs : TForest) :
    phiForest false cs = countCollapsedList false cs + phiForest true cs :=
  forestInd
    (fun t => phiNode false t = countCollapsedEntry false t + phiNode true t)
    (fun l => phiForest false l = countCollapsedList false l + phiForest true l)
    (fun e l _ => by
      rcases l with _ | ⟨c, rest⟩ <;> cases e <;>
        simp [phiNode, countCollapsedEntry, TForest.isEmpty])
    (by simp [phiForest, countCollapsedList])
    (fun c rest hc hrest => by
      simp [phiForest, countCollapsedList, hc, hrest]; omega)
    cs

/-- `phiForest` is bounded by the total collapsed-with-children count. -/
theorem phiForest_le_total (cs : TForest) :
    ∀ pc, phiForest pc cs ≤ totalCWCForest cs :=
  forestInd (fun t => ∀ pc, phiNode pc t ≤ totalCWCEntry t)
    (fun l => ∀ pc, phiForest pc l ≤ totalCWCForest l)
    (fun e l h pc => by
      have h2 := h (!l.isEmpty && !e)
      simp only [phiNode, totalCWCEntry]
      have : (if (!l.isEmpty && !e) && !pc then 1 else 0) ≤
          (if !l.isEmpty && !e then 1 else 0) := by
        cases (!l.isEmpty && !e) <;> cases pc <;> simp
      omega)
    (fun _ => by simp [phiForest, totalCWCForest])
    (fun c rest hc hrest pc => by
      have h1 := hc pc
      have h2 := hrest pc
      simp only [phiForest, totalCWCForest]
      omega)
    cs

/-- `setAllForest` preserves the number of rows. -/
theorem setAllForest_length (cs : TForest) :
    ∀ b, (setAllForest b cs).length = cs.length :=
  forestInd (fun _ => True)
    (fun l => ∀ b, (setAllForest b l).length = l.length)
    (fun _ _ _ => trivial)
    (fun _ => by simp [setAllForest])
    (fun c rest _ hrest b => by
      simp [setAllForest, TForest.length, hrest b])
    cs

/-- After expanding every row, no row is collapsed-with-children. -/
theorem phiForest_setAll_true (cs : TForest) :
    ∀ pc, phiForest pc (setAllForest true cs) = 0 :=
  forestInd (fun t => ∀ pc, phiNode pc (setAllNode true t) = 0)
    (fun l => ∀ pc, phiForest pc (setAllForest true l) = 0)
    (fun e l h pc => by
      simp [setAllNode, phiNode, h false])
    (fun _ => by simp [setAllForest, phiForest])
    (fun c rest hc hrest pc => by
      simp [setAllForest, phiForest, hc pc, hrest pc])
    cs

/-- After collapsing every row, rows below a collapsed-with-children parent
contribute nothing to `phiForest`. -/
theorem phiForest_setAll_false_true (cs : TForest) :
    phiForest true (setAllForest false cs) = 0 :=
  forestInd (fun t => phiNode true (setAllNode false t) = 0)
    (fun l => phiForest true (setAllForest false l) = 0)
    (fun e l h => by
      rcases l with _ | ⟨c, rest⟩
      · simp [setAllNode, setAllForest, phiNode, phiForest, TForest.isEmpty]
      · simp only [setAllNode, setAllForest, phiNode, TForest.isEmpty,
          Bool.not_false, Bool.and_true, Bool.not_true, Bool.and_false,
          Bool.false_and, if_false]
        simpa [setAllForest, TForest.isEmpty] using h)
    (by simp [setAllForest, phiForest])
    (fun c rest hc hrest => by
      simp [setAllForest, phiForest, hc, hrest])
    cs

/-- After collapsing every row, `phiForest` is at most the number of
top-level rows. -/
theorem phiForest_setAll_false_le (cs : TForest) :
    ∀ pc, phiForest pc (setAllForest false cs) ≤ cs.length :=
  forestInd (fun t => ∀ pc, phiNode pc (setAllNode false t) ≤ 1)
    (fun l => ∀ pc, phiForest pc (setAllForest false l) ≤ l.length)
    (fun e l _ pc => by
      rcases l with _ | ⟨c, rest⟩
      · simp [setAllNode, setAllForest, phiNode, phiForest, TForest.isEmpty]
      · have h0 : phiForest true (setAllForest false (TForest.cons c rest)) = 0 :=
          phiForest_setAll_false_true _
        simp only [setAllNode, phiNode, TForest.isEmpty] at h0 ⊢
        simp only [setAllForest] at h0 ⊢
        simp only [TForest.isEmpty, Bool.not_false, Bool.and_true]
        split <;> omega)
    (fun _ => by simp [setAllForest, phiForest, TForest.length])
    (fun c rest hc hrest pc => by
      have h1 := hc pc
      have h2 := hrest pc
      simp only [setAllForest, phiForest, TForest.length]
      omega)
    cs

/-- `phiForest` distributes over forest concatenation. -/
theorem phiForest_append (a : TForest) :
    ∀ b pc, phiForest pc (a.append b) = phiForest pc a + phiForest pc b :=
  forestInd (fun _ => True)
    (fun l => ∀ b pc, phiForest pc (l.append b) = phiForest pc l + phiForest pc b)
    (fun _ _ _ => trivial)
    (fun b pc => by simp [TForest.append, phiForest])
    (fun c rest _ hrest b pc => by
      simp [TForest.append, phiForest, hrest b pc]; omega)
    a

/-- Decomposing a forest at a row found by `get?`. -/
theorem take_get_drop (cs : TForest) :
    ∀ i c, cs.get? i = some c →
      (cs.take i).append (.cons c (cs.drop (i + 1))) = cs :=
  forestInd (fun _ => True)
    (fun l => ∀ i c, l.get? i = some c →
      (l.take i).append (.cons c (l.drop (i + 1))) = l)
    (fun _ _ _ => trivial)
    (fun i c h => by simp [TForest.get?] at h)
    (fun c0 rest _ hrest i c h => by
      cases i with
      | zero =>
          simp [TForest.get?] at h
          simp [TForest.take, TForest.drop, TForest.append, h]
      | succ j =>
          simp only [TForest.get?] at h
          simp [TForest.take, TForest.drop, TForest.append, hrest j c h])
    cs

/-- Looking up the replaced row after the surgery of `setExpandedAt`. -/
theorem surgery_get (cs : TForest) :
    ∀ i c x, cs.get? i = some c →
      ((cs.take i).append (.cons x (cs.drop (i + 1)))).get? i = some x :=
  forestInd (fun _ => True)
    (fun l => ∀ i c x, l.get? i = some c →
      ((l.take i).append (.cons x (l.drop (i + 1)))).get? i = some x)
    (fun _ _ _ => trivial)
    (fun i c x h => by simp [TForest.get?] at h)
    (fun c0 rest _ hrest i c x h => by
      cases i with
      | zero => simp [TForest.take, TForest.drop, TForest.append, TForest.get?]
      | succ j =>
          simp only [TForest.get?] at h
          simp [TForest.take, TForest.drop, TForest.append, TForest.get?,
            hrest j c x h])
    cs

/-- Resolving the path that was just toggled yields the same row with the
new flag (`setExpandedAt` only touches the flag at the path). -/
theorem getNode_setExpandedAt (q : TPath) :
    ∀ (t n : TNode) (b : Bool), getNode? q t = some n →
      getNode? q (setExpandedAt q b t) = some (TNode.node b n.children) := by
  induction q with
  | nil =>
      intro t n b h
      simp [getNode?] at h
      subst h
      simp [getNode?, setExpandedAt]
  | cons i p ih =>
      intro t n b h
      simp only [getNode?, Option.bind_eq_some] at h
      obtain ⟨c, hget, hrec⟩ := h
      simp only [setExpandedAt, hget, getNode?]
      have hg := surgery_get t.children i c (setExpandedAt p b c) hget
      simp [hg, ih c n b hrec]

/-- Replacing one row of a forest changes `phiForest` by the difference of
the two rows' contributions. -/
theorem phi_surgery (cs : TForest) (i : Nat) (c x : TNode)
    (h : cs.get? i = some c) :
    phiForest false ((cs.take i).append (.cons x (cs.drop (i + 1)))) +
        phiNode false c
      = phiForest false cs + phiNode false x := by
  conv_rhs => rw [← take_get_drop cs i c h]
  rw [phiForest_append, phiForest_append]
  simp only [phiForest]
  omega

/-- An expanded row is never collapsed-with-children. -/
theorem phiNode_of_expanded (t : TNode) (h : t.expanded = true) :
    phiNode false t = phiForest false t.children := by
  cases t with
  | node e cs =>
      simp only [TNode.expanded_node] at h
      simp [phiNode, h]

/-- A collapsed row with children contributes one unit, and its children
count with a collapsed-with-children parent. -/
theorem phiNode_of_cwc (t : TNode) (he : t.expanded = false)
    (hne : t.children.isEmpty = false) :
    phiNode false t = 1 + phiForest true t.children := by
  cases t with
  | node e cs =>
      simp only [TNode.expanded_node, TNode.children_node] at he hne
      simp [phiNode, he, hne]

/-- `setExpandedAt` on a non-empty path preserves the root's own flag. -/
theorem setExpandedAt_expanded (q : TPath) (b : Bool) (t : TNode)
    (h : q ≠ []) : (setExpandedAt q b t).expanded = t.expanded := by
  cases q with
  | nil => exact absurd rfl h
  | cons i p =>
      simp only [setExpandedAt]
      rcases hg : t.children.get? i with _ | c <;> simp

/-- Unfolding `setExpandedAt` one hop when the row exists, without
unfolding the recursive call on the tail path. -/
theorem setExpandedAt_cons_children (i : Nat) (p : TPath) (b : Bool)
    (t c : TNode) (h : t.children.get? i = some c) :
    (setExpandedAt (i :: p) b t).children =
      (t.children.take i).append
        (.cons (setExpandedAt p b c) (t.children.drop (i + 1))) := by
  cases p with
  | nil => simp [setExpandedAt, h]
  | cons j p2 => simp only [setExpandedAt, h, TNode.children_node]

/-- Key step, expansion: expanding a shown collapsed row with children
(all proper ancestors expanded) changes `phiForest` of the whole tree by
`countCollapsed(row, false) - 1`. -/
theorem expandDelta (q : TPath) :
    ∀ (t n : TNode), q ≠ [] → getNode? q t = some n → n.expanded = false →
      n.children.isEmpty = false → ancOK q t = true →
      phiForest false (setExpandedAt q true t).children + 1
        = phiForest false t.children + countCollapsedList false n.children := by
  induction q with
  | nil => intro t n h; exact absurd rfl h
  | cons i p ih =>
      intro t n _ hget hexp hne hanc
      simp only [getNode?, Option.bind_eq_some] at hget
      obtain ⟨c, hgi, hrec⟩ := hget
      cases p with
      | nil =>
          have hcn : c = n := by simpa [getNode?] using hrec
          rw [hcn] at hgi
          rw [setExpandedAt_cons_children i [] true t n hgi]
          have hsur := phi_surgery t.children i n
            (setExpandedAt [] true n) hgi
          have hx : setExpandedAt [] true n = TNode.node true n.children := by
            simp [setExpandedAt]
          rw [hx] at hsur ⊢
          have h1 : phiNode false (TNode.node true n.children) =
              countCollapsedList false n.children + phiForest true n.children := by
            rw [phiNode_of_expanded (TNode.node true n.children) rfl]
            simp only [TNode.children_node]
            exact phiForest_false_split n.children
          have h2 := phiNode_of_cwc n hexp hne
          omega
      | cons j p2 =>
          have hanc2 : c.expanded = true ∧ ancOK (j :: p2) c = true := by
            simp only [ancOK, hgi] at hanc
            simpa using hanc
          have hmain := ih c n (by simp) hrec hexp hne hanc2.2
          rw [setExpandedAt_cons_children i (j :: p2) true t c hgi]
          have hsur := phi_surgery t.children i c
            (setExpandedAt (j :: p2) true c) hgi
          have hce : (setExpandedAt (j :: p2) true c).expanded = true := by
            rw [setExpandedAt_expanded (j :: p2) true c (by simp)]
            exact hanc2.1
          have h1 := phiNode_of_expanded _ hce
          have h2 := phiNode_of_expanded c hanc2.1
          omega

/-- Key step, collapse: collapsing a shown expanded row with children
(all proper ancestors expanded) changes `phiForest` of the whole tree by
`1 - countCollapsed(row, false)`. -/
theorem collapseDelta (q : TPath) :
    ∀ (t n : TNode), q ≠ [] → getNode? q t = some n → n.expanded = true →
      n.children.isEmpty = false → ancOK q t = true →
      phiForest false (setExpandedAt q false t).children +
          countCollapsedList false n.children
        = phiForest false t.children + 1 := by
  induction q with
  | nil => intro t n h; exact absurd rfl h
  | cons i p ih =>
      intro t n _ hget hexp hne hanc
      simp only [getNode?, Option.bind_eq_some] at hget
      obtain ⟨c, hgi, hrec⟩ := hget
      cases p with
      | nil =>
          have hcn : c = n := by simpa [getNode?] using hrec
          rw [hcn] at hgi
          rw [setExpandedAt_cons_children i [] false t n hgi]
          have hsur := phi_surgery t.children i n
            (setExpandedAt [] false n) hgi
          have hx : setExpandedAt [] false n = TNode.node false n.children := by
            simp [setExpandedAt]
          rw [hx] at hsur ⊢
          have h1 : phiNode false (TNode.node false n.children) =
              1 + phiForest true n.children := by
            have h0 := phiNode_of_cwc (TNode.node false n.children) rfl
              (by simpa using hne)
            simpa using h0
          have h2 : phiNode false n =
              countCollapsedList false n.children + phiForest true n.children := by
            rw [phiNode_of_expanded n hexp]
            exact phiForest_false_split n.children
          omega
      | cons j p2 =>
          have hanc2 : c.expanded = true ∧ ancOK (j :: p2) c = true := by
            simp only [ancOK, hgi] at hanc
            simpa using hanc
          have hmain := ih c n (by simp) hrec hexp hne hanc2.2
          rw [setExpandedAt_cons_children i (j :: p2) false t c hgi]
          have hsur := phi_surgery t.children i c
            (setExpandedAt (j :: p2) false c) hgi
          have hce : (setExpandedAt (j :: p2) false c).expanded = true := by
            rw [setExpandedAt_expanded (j :: p2) false c (by simp)]
            exact hanc2.1
          have h1 := phiNode_of_expanded _ hce
          have h2 := phiNode_of_expanded c hanc2.1
          omega

/-- While `mSupressItemExpandStateChanged` is raised, a per-item handler
does nothing. -/
theorem foldHandler_suppressed (f : TVS → TPath → TVS × List Int)
    (hf : ∀ st q, st.mSupressItemExpandStateChanged = true → f st q = (st, []))
    (emitted : List TPath) :
    ∀ st : TVS, st.mSupressItemExpandStateChanged = true →
      foldHandler f st emitted = (st, []) := by
  induction emitted with
  | nil => intro st _; rfl
  | cons q qs ih =>
      intro st h
      have h2 := ih st h
      simp only [foldHandler, List.foldl] at h2 ⊢
      rw [hf st q h]
      simpa using h2

/-- A suppressed `itemExpanded` call is a no-op. -/
theorem itemExpandedT_suppressed (st : TVS) (q : TPath)
    (h : st.mSupressItemExpandStateChanged = true) :
    itemExpandedT st q = (st, []) := by
  simp [itemExpandedT, h]

/-- A suppressed `itemCollapsed` call is a no-op. -/
theorem itemCollapsedT_suppressed (st : TVS) (q : TPath)
    (h : st.mSupressItemExpandStateChanged = true) :
    itemCollapsedT st q = (st, []) := by
  simp [itemCollapsedT, h]

/-- Evaluation of `TreeView::expandAll`: all rows expanded, per-item
signals suppressed, counter set to `0`. -/
theorem applyOpT_expandAll (s : TVS) (emitted : List TPath) :
    applyOpT s (TOp.expandAll emitted) =
      (setCollapseCountFn
        { s with
            root := TNode.node s.root.expanded (setAllForest true s.root.children),
            mSupressItemExpandStateChanged := false } 0,
        [(0 : Int)]) := by
  simp only [applyOpT]
  rw [foldHandler_suppressed itemExpandedT
    (fun st q h => itemExpandedT_suppressed st q h) emitted _ rfl]
  rfl

/-- Evaluation of `TreeView::collapseAll`: all rows collapsed, per-item
signals suppressed, counter set to `model()->rowCount()`. -/
theorem applyOpT_collapseAll (s : TVS) (emitted : List TPath) :
    applyOpT s (TOp.collapseAll emitted) =
      (setCollapseCountFn
        { s with
            root := TNode.node s.root.expanded (setAllForest false s.root.children),
            mSupressItemExpandStateChanged := false }
        ((s.root.children.length : Nat) : Int),
        [((s.root.children.length : Nat) : Int)]) := by
  simp only [applyOpT]
  rw [foldHandler_suppressed itemCollapsedT
    (fun st q h => itemCollapsedT_suppressed st q h) emitted _ rfl]
  rfl

/-- Evaluation of an unsuppressed `itemExpanded`. -/
theorem itemExpandedT_eval (st : TVS) (q : TPath)
    (h : st.mSupressItemExpandStateChanged = false) :
    itemExpandedT st q =
      (setCollapseCountFn st
        (st.mCollapseCount - 1 +
          ((countCollapsed ((getNode? q st.root).getD dfltNode) false : Nat) : Int)),
        [st.mCollapseCount - 1 +
          ((countCollapsed ((getNode? q st.root).getD dfltNode) false : Nat) : Int)]) := by
  simp [itemExpandedT, h]

/-- Evaluation of an unsuppressed `itemCollapsed`. -/
theorem itemCollapsedT_eval (st : TVS) (q : TPath)
    (h : st.mSupressItemExpandStateChanged = false) :
    itemCollapsedT st q =
      (setCollapseCountFn st
        (st.mCollapseCount + 1 -
          ((countCollapsed ((getNode? q st.root).getD dfltNode) false : Nat) : Int)),
        [st.mCollapseCount + 1 -
          ((countCollapsed ((getNode? q st.root).getD dfltNode) false : Nat) : Int)]) := by
  simp [itemCollapsedT, h]

/-- One UI-safe event keeps every value passed to `setCollapseCount`
non-negative and preserves the invariant. -/
theorem stepSafe (s : TVS) (o : TOp) (hInv : TVInv s)
    (hsafe : safeOp s o = true) :
    (∀ a ∈ (applyOpT s o).2, 0 ≤ a) ∧ TVInv (applyOpT s o).1 := by
  obtain ⟨hflag, hphi⟩ := hInv
  cases o with
  | expandOne p =>
      cases p with
      | nil =>
          simp only [applyOpT]
          exact ⟨by simp, hflag, hphi⟩
      | cons i p2 =>
          simp only [applyOpT]
          rcases hg : getNode? (i :: p2) s.root with _ | n
          · exact ⟨by simp, hflag, hphi⟩
          · by_cases he : n.expanded = true
            · simp only [he, if_true]
              exact ⟨by simp, hflag, hphi⟩
            · have he2 : n.expanded = false := by simpa using he
              simp only [he2, Bool.false_eq_true, if_false]
              simp only [safeOp, hg, he2, Bool.false_or,
                Bool.and_eq_true, Bool.not_eq_eq_eq_not, Bool.not_true] at hsafe
              obtain ⟨hne, hanc⟩ := hsafe
              have hget2 := getNode_setExpandedAt (i :: p2) s.root n true hg
              have hdelta := expandDelta (i :: p2) s.root n (by simp) hg he2 hne hanc
              rw [itemExpandedT_eval _ _ (by simpa using hflag)]
              have hroot : ({ s with root := setExpandedAt (i :: p2) true s.root } : TVS).root
                  = setExpandedAt (i :: p2) true s.root := rfl
              rw [hroot, hget2]
              simp only [Option.getD_some]
              have hcc : countCollapsed (TNode.node true n.children) false =
                  countCollapsedList false n.children := rfl
              rw [hcc]
              have hdeltaZ : ((phiForest false (setExpandedAt (i :: p2) true s.root).children : Nat) : Int) + 1
                  = ((phiForest false s.root.children : Nat) : Int)
                    + ((countCollapsedList false n.children : Nat) : Int) := by
                exact_mod_cast hdelta
              constructor
              · intro a ha
                simp at ha
                subst ha
                have hz : (0 : Int) ≤ ((phiForest false (setExpandedAt (i :: p2) true s.root).children : Nat) : Int) :=
                  Int.natCast_nonneg _
                omega
              · refine ⟨by simpa using hflag, ?_⟩
                simp only [setCollapseCountFn]
                omega
  | collapseOne p =>
      cases p with
      | nil =>
          simp only [applyOpT]
          exact ⟨by simp, hflag, hphi⟩
      | cons i p2 =>
          simp only [applyOpT]
          rcases hg : getNode? (i :: p2) s.root with _ | n
          · exact ⟨by simp, hflag, hphi⟩
          · by_cases he : n.expanded = true
            · simp only [he, Bool.not_true, Bool.false_eq_true, if_false]
              simp only [safeOp, hg, he, Bool.not_true, Bool.false_or,
                Bool.and_eq_true, Bool.not_eq_eq_eq_not] at hsafe
              obtain ⟨hne, hanc⟩ := hsafe
              have hne2 : n.children.isEmpty = false := by simpa using hne
              have hget2 := getNode_setExpandedAt (i :: p2) s.root n false hg
              have hdelta := collapseDelta (i :: p2) s.root n (by simp) hg he hne2 hanc
              rw [itemCollapsedT_eval _ _ (by simpa using hflag)]
              have hroot : ({ s with root := setExpandedAt (i :: p2) false s.root } : TVS).root
                  = setExpandedAt (i :: p2) false s.root := rfl
              rw [hroot, hget2]
              simp only [Option.getD_some]
              have hcc : countCollapsed (TNode.node false n.children) false =
                  countCollapsedList false n.children := rfl
              rw [hcc]
              have hdeltaZ : ((phiForest false (setExpandedAt (i :: p2) false s.root).children : Nat) : Int)
                    + ((countCollapsedList false n.children : Nat) : Int)
                  = ((phiForest false s.root.children : Nat) : Int) + 1 := by
                exact_mod_cast hdelta
              constructor
              · intro a ha
                simp at ha
                subst ha
                have hz : (0 : Int) ≤ ((phiForest false (setExpandedAt (i :: p2) false s.root).children : Nat) : Int) :=
                  Int.natCast_nonneg _
                omega
              · refine ⟨by simpa using hflag, ?_⟩
                simp only [setCollapseCountFn]
                omega
            · have he2 : n.expanded = false := by simpa using he
              simp only [he2, Bool.not_false, if_true]
              exact ⟨by simp, hflag, hphi⟩
  | expandAll emitted =>
      rw [applyOpT_expandAll]
      constructor
      · intro a ha
        simp only [List.mem_singleton] at ha
        subst ha
        exact le_refl 0
      · refine ⟨rfl, ?_⟩
        simp only [setCollapseCountFn]
        have h0 := phiForest_setAll_true s.root.children false
        simp only [TNode.children_node]
        rw [h0]
        simp
  | collapseAll emitted =>
      rw [applyOpT_collapseAll]
      constructor
      · intro a ha
        simp only [List.mem_singleton] at ha
        subst ha
        exact Int.natCast_nonneg _
      · refine ⟨rfl, ?_⟩
        simp only [setCollapseCountFn]
        have h0 := phiForest_setAll_false_le s.root.children false
        simp only [TNode.children_node]
        exact_mod_cast h0
  | rowsInserted newRoot =>
      simp only [applyOpT]
      constructor
      · intro a ha
        simp only [List.mem_singleton] at ha
        subst ha
        exact Int.natCast_nonneg _
      · refine ⟨by simpa using hflag, ?_⟩
        simp only [setCollapseCountFn]
        have h1 := phiForest_le_total newRoot.children false
        rw [countCollapsed, countCollapsedList_true_eq_total]
        exact_mod_cast h1

/-- A consistent state satisfies the handler invariant. -/
theorem consistent_TVInv (s : TVS) (h : ConsistentState s) : TVInv s := by
  obtain ⟨h1, h2, _⟩ := h
  refine ⟨h2, ?_⟩
  rw [h1, countCollapsed, countCollapsedList_true_eq_total]
  exact_mod_cast phiForest_le_total s.root.children false

/-- Along any UI-safe run from a state satisfying the invariant, every
value passed to `setCollapseCount` is non-negative. -/
theorem safeRun_nonneg (ops : List TOp) :
    ∀ s : TVS, TVInv s → safeRun s ops = true →
      ∀ a ∈ (runOps s ops).2, 0 ≤ a := by
  induction ops with
  | nil =>
      intro s _ _ a ha
      simp [runOps] at ha
  | cons o os ih =>
      intro s hInv hsafe a ha
      simp only [safeRun, Bool.and_eq_true] at hsafe
      have hstep := stepSafe s o hInv hsafe.1
      simp only [runOps, List.mem_append] at ha
      rcases ha with h | h
      · exact hstep.1 a h
      · exact ih (applyOpT s o).1 hstep.2 hsafe.2 a h

/-- Claim C1 (code bug): the spec's invariant — after any sequence of
expand/collapse events `collapseCount` equals the number of rows with at
least one child currently collapsed — is violated by the code: from the
consistent all-collapsed chain state with counter 2, a single expand of
the top row leaves the counter at 2 although the new tree has exactly 1
collapsed row with children. -/
theorem c1_invariant_fails_eval :
    ConsistentState (mkState chainABC 2) ∧
    ((runOps (mkState chainABC 2) [TOp.expandOne [0]]).1).mCollapseCount = 2 ∧
    totalCWCForest ((runOps (mkState chainABC 2) [TOp.expandOne [0]]).1).root.children = 1 := by
  refine ⟨⟨by decide, rfl, rfl⟩, by decide, by decide⟩

/-- Claim C2, counterexample: `countCollapsed(root, true)` does NOT
traverse only the currently-visible rows: on the chain tree it also counts
the collapsed row hidden inside the collapsed top row, returning 2 where
only 1 collapsed row with children is visible. -/
theorem c2_visible_only_fails :
    countCollapsed chainABC true = 2 ∧
    visibleCWCForest chainABC.children = 1 ∧
    countCollapsed chainABC true ≠ visibleCWCForest chainABC.children := by
  refine ⟨by decide, by decide, by decide⟩

/-- Claim C2 (amended): `countCollapsed(parent, recursive=true)` traverses
ALL rows below `parent` — including rows hidden inside collapsed subtrees —
and returns the number of rows with at least one child that are not
currently expanded. -/
theorem c2_countCollapsed_counts_all (t : TNode) :
    countCollapsed t true = totalCWCForest t.children :=
  countCollapsedList_true_eq_total t.children

/-- Claim C3 (code bug): the incremental single-row update does not refine
the from-scratch recount: from a state whose counter equals
`countCollapsed()` (the all-collapsed chain, counter 2), `itemExpanded` on
the top row yields counter 2 while `countCollapsed()` on the new state is
1. -/
theorem c3_incremental_diverges_eval :
    (mkState chainABC 2).mCollapseCount
        = ((countCollapsed (mkState chainABC 2).root true : Nat) : Int) ∧
    ((applyOpT (mkState chainABC 2) (TOp.expandOne [0])).1).mCollapseCount = 2 ∧
    countCollapsed ((applyOpT (mkState chainABC 2) (TOp.expandOne [0])).1).root true = 1 := by
  refine ⟨by decide, by decide, by decide⟩

/-- Claim C4, counterexample: a value of `-1` can be passed to
`setCollapseCount` (failing its assertion): starting from the consistent
all-expanded diamond state, run `collapseAll` and then expand the two
hidden inner rows. -/
theorem c4_negative_value_reachable :
    ConsistentState (mkState diamondAE 0) ∧
    (-1 : Int) ∈ (runOps (mkState diamondAE 0)
      [TOp.collapseAll [], TOp.expandOne [0, 0], TOp.expandOne [0, 1]]).2 := by
  refine ⟨⟨by decide, rfl, rfl⟩, by decide⟩

/-- Claim C4 (amended): starting from a consistent state, along any event
sequence whose single-row expand/collapse events only target shown rows
with at least one child (the rows the UI lets the user toggle), every
value passed to `setCollapseCount` — by `itemExpanded`, `itemCollapsed`,
`expandAll`, `collapseAll` and the recounting handlers — is non-negative,
so the assertion in `setCollapseCount` holds. -/
theorem c4_nonneg_for_visible_ops (ops : List TOp) (s : TVS)
    (h1 : ConsistentState s) (h2 : safeRun s ops = true) :
    ∀ a ∈ (runOps s ops).2, 0 ≤ a :=
  safeRun_nonneg ops s (consistent_TVInv s h1) h2

/-- Witness for the amended C4 at a concrete safe run. -/
theorem c4_nonneg_for_visible_ops_witness :
    0 ≤ ((runOps (mkState chainABC 2) [TOp.expandOne [0]]).2.headD 0) :=
  c4_nonneg_for_visible_ops [TOp.expandOne [0]] (mkState chainABC 2)
    ⟨by decide, rfl, rfl⟩ (by decide) _ (by decide)

/-- Claim C5: when the discard delegated to `DiffTreeModel::discard`
fails, exactly one log entry is constructed and exactly one error is
displayed through the parent repository view, and the discard is not
retried (exactly one model call); on success neither is produced. -/
theorem c5_discard_error_path (b : Bool) :
    ∃ es, discardRun (.sortFilterProxy .diffTreeModel) true b = .ok es ∧
      es.count .modelDiscardCall = 1 ∧
      es.count .logEntryAdd = (if b then 0 else 1) ∧
      es.count .errorShow = (if b then 0 else 1) := by
  cases b
  · exact ⟨[.modelDiscardCall, .logEntryAdd, .errorShow], rfl, by decide, by decide, by decide⟩
  · exact ⟨[.modelDiscardCall], rfl, by decide, by decide, by decide⟩

/-- Claim C6, counterexample: `expandAll` does not leave BOTH suppression
flags false for every input state — on a state entered with
`suppressDeselectionHandling = true` it returns with that flag still
true. -/
theorem c6_expandAll_leaves_other_flag :
    ((applyOpT c6state (TOp.expandAll [])).1).suppressDeselectionHandling = true := by
  rw [applyOpT_expandAll]
  rfl

/-- Claim C6 (amended): each call resets the flag it raises before
returning and leaves the other flag unchanged: `expandAll`/`collapseAll`
return with `mSupressItemExpandStateChanged = false` and
`suppressDeselectionHandling` as on entry, and `deselectAll` returns with
`suppressDeselectionHandling = false` and `mSupressItemExpandStateChanged`
as on entry — so both flags are false on return whenever the other flag
was false on entry, as at every call site. -/
theorem c6_flags_reset (s : TVS) (emitted : List TPath) :
    ((applyOpT s (TOp.expandAll emitted)).1).mSupressItemExpandStateChanged = false ∧
    ((applyOpT s (TOp.expandAll emitted)).1).suppressDeselectionHandling = s.suppressDeselectionHandling ∧
    ((applyOpT s (TOp.collapseAll emitted)).1).mSupressItemExpandStateChanged = false ∧
    ((applyOpT s (TOp.collapseAll emitted)).1).suppressDeselectionHandling = s.suppressDeselectionHandling ∧
    (deselectAllFn s).suppressDeselectionHandling = false ∧
    (deselectAllFn s).mSupressItemExpandStateChanged = s.mSupressItemExpandStateChanged := by
  refine ⟨?_, ?_, ?_, ?_, ?_, ?_⟩
  · rw [applyOpT_expandAll]; rfl
  · rw [applyOpT_expandAll]; rfl
  · rw [applyOpT_collapseAll]; rfl
  · rw [applyOpT_collapseAll]; rfl
  · rfl
  · by_cases hsel : s.selection.isEmpty <;>
      simp [deselectAllFn, clearSelectionFn, handleSelectionChange, hsel]

/-- Claim C7: whenever the resulting selection is non-empty,
`handleSelectionChange` emits `fileSelected` exactly once, carrying the
unique selected index when exactly one index is selected and the invalid
index when more than one is; with an empty resulting selection no
`fileSelected` is emitted. -/
theorem c7_fileSelected_emission (s : TVS) (des : List MIdx) :
    (s.selection = [] → (handleSelectionChange s des).2 = []) ∧
    (∀ i, s.selection = [i] → (handleSelectionChange s des).2 = [i]) ∧
    (2 ≤ s.selection.length → (handleSelectionChange s des).2 = [MIdx.invalid]) := by
  have hsnd : (handleSelectionChange s des).2 =
      (if 0 < s.selection.length then
        [if s.selection.length = 1 then s.selection.headD .invalid else .invalid]
      else []) := by
    simp only [handleSelectionChange]
    split
    · rfl
    · split <;> rfl
  refine ⟨?_, ?_, ?_⟩
  · intro h
    rw [hsnd, h]
    rfl
  · intro i h
    rw [hsnd, h]
    rfl
  · intro h
    rw [hsnd]
    have h1 : 0 < s.selection.length := by omega
    have h2 : s.selection.length ≠ 1 := by omega
    simp [h1, h2]

/-- Witness for C7 at a concrete singleton selection. -/
theorem c7_fileSelected_emission_witness :
    (handleSelectionChange c7wState []).2 = [MIdx.valid [3]] :=
  (c7_fileSelected_emission c7wState []).2.1 (MIdx.valid [3]) rfl

/-- Claim C8: under the precondition that the view's model is a
`QSortFilterProxyModel` over a `DiffTreeModel` and a parent `RepoView`
exists, none of the three assertions in `discard` fails — the run never
takes an `AssertPoint` error path. -/
theorem c8_discard_asserts_hold (m : ViewModelKind) (pv : Bool) (b : Bool)
    (h1 : m = ViewModelKind.sortFilterProxy SourceModelKind.diffTreeModel)
    (h2 : pv = true) :
    ∃ es, discardRun m pv b = .ok es := by
  subst h1
  subst h2
  cases b
  · exact ⟨_, rfl⟩
  · exact ⟨_, rfl⟩

/-- Witness for C8 on the failing-discard branch. -/
theorem c8_discard_asserts_hold_witness :
    ∃ es, discardRun (ViewModelKind.sortFilterProxy SourceModelKind.diffTreeModel)
      true false = .ok es :=
  c8_discard_asserts_hold _ _ false rfl rfl

/-- Claim C9: `collapseAll` always sets `collapseCount` to the model's
top-level row count, for every tree (top-level leaves and deeper rows with
children included), rather than recounting collapsed rows — on the chain
tree the stored value differs from the recount of the resulting state. -/
theorem c9_collapseAll_rowCount :
    (∀ (s : TVS) (emitted : List TPath),
        ((applyOpT s (TOp.collapseAll emitted)).1).mCollapseCount
          = ((s.root.children.length : Nat) : Int)) ∧
    ((applyOpT (mkState chainABC 2) (TOp.collapseAll [])).1).mCollapseCount
        ≠ ((countCollapsed ((applyOpT (mkState chainABC 2) (TOp.collapseAll [])).1).root true : Nat) : Int) := by
  constructor
  · intro s emitted
    rw [applyOpT_collapseAll]
    rfl
  · rw [applyOpT_collapseAll]
    decide

/-- Claim C10: the data-changed overload of `updateCollapseCount` requires
`topLeft = bottomRight` (assertion) and a non-empty `roles` vector
(unguarded `roles[0]` read) as preconditions, recounts from scratch
exactly when the first role is `Qt::CheckStateRole`, and leaves the
counter unchanged for any other first role. -/
theorem c10_dataChanged_behavior (s : TVS) (tl br : MIdx) (r : Nat)
    (rs : List Nat) (h : tl = br) :
    updateCollapseCountDataFn s tl br (r :: rs)
        = some (if r = qtCheckStateRole
            then setCollapseCountFn s ((countCollapsed s.root true : Nat) : Int)
            else s) ∧
    updateCollapseCountDataFn s tl br [] = none ∧
    (∀ tl2 br2 : MIdx, tl2 ≠ br2 →
      updateCollapseCountDataFn s tl2 br2 (r :: rs) = none) := by
  subst h
  refine ⟨?_, ?_, ?_⟩
  · simp only [updateCollapseCountDataFn, if_pos rfl]
    by_cases hr : r = qtCheckStateRole
    · simp [hr]
    · simp [hr]
  · simp [updateCollapseCountDataFn]
  · intro tl2 br2 hne
    simp [updateCollapseCountDataFn, hne]

/-- Witness for C10 with a `CheckStateRole` change. -/
theorem c10_dataChanged_behavior_witness :
    updateCollapseCountDataFn (mkState chainABC 2) MIdx.invalid MIdx.invalid
        [qtCheckStateRole]
      = some (if qtCheckStateRole = qtCheckStateRole
          then setCollapseCountFn (mkState chainABC 2)
            ((countCollapsed (mkState chainABC 2).root true : Nat) : Int)
          else (mkState chainABC 2)) :=
  (c10_dataChanged_behavior (mkState chainABC 2) MIdx.invalid MIdx.invalid
    qtCheckStateRole [] rfl).1
